import Mathlib

/-!
# gobox: the action walk of `testq` and the shutdown flag of the WebRTC service

Two parts of the repository are embedded here.

* `src/testq/main.go`: the `Action` interface, the recursive walk `process`
  and the worked graph built in `main`.  The walk starts every node's
  `Process` with a `go` statement and never waits for it, so the embedding
  has two layers: the walk itself (`fn`, `fnBefore`, `process`), which is a
  sequential function that records the go statements it executes, and the
  host (`Host`), a step machine in which the walk and the started goroutines
  are interleaved by a scheduler.
* `src/webrtc/service/webrtc.go`: the `done` channel and the `stopped` flag
  of `WebRTCService`, with `Close` and the deferred function of
  `processMessages`.
-/

namespace Testq

/-! ## Data model -/

/-- Values of Go's `error` that the walk can meet: the two errors of package
`context`, and any other error, identified by its message. `nil` is `none` of
`Option GoError`. -/
inductive GoError where
  | Canceled
  | DeadlineExceeded
  | other (msg : String)
deriving DecidableEq, Repr

/-- A `context.Context` as a callee can observe it: the value of `ctx.Err()`,
`none` while the context is live. -/
structure Context where
  err : Option GoError
deriving DecidableEq, Repr

/-- The `Action` interface. A value carries what the four methods return:
`Name()`, the outcome of `Process(ctx)` (`none` for a nil error), `Before()`
and `Next()` (`none` for a nil successor). Values of this type are finite
trees: they are the unfoldings of the finite acyclic graphs. -/
inductive Action where
  | mk (name : String) (proc : Context → Option GoError)
      (before : List Action) (next : Option Action)

/-- Method `Name`. -/
def Action.Name : Action → String
  | .mk n _ _ _ => n

/-- Method `Process`. -/
def Action.Process : Action → Context → Option GoError
  | .mk _ p _ _ => p

/-- Method `Before`. -/
def Action.Before : Action → List Action
  | .mk _ _ b _ => b

/-- Method `Next`. -/
def Action.Next : Action → Option Action
  | .mk _ _ _ n => n

/-- The concrete type `A` of the source: `Process` calls `procFn` and returns
nil whatever the context is. -/
def A (name : String) (before : List Action) (next : Option Action) : Action :=
  .mk name (fun _ => none) before next

/-- The closure started by the go statement of `fn`: it captures the node `f`
and the context `ctx`. -/
structure Goroutine where
  f : Action
  ctx : Context

/-- Name of the node a goroutine was started for. -/
def Goroutine.name (g : Goroutine) : String := g.f.Name

/-! ## The walk -/

/-- The statement `if err := call; err != nil` with the body `return err`,
followed by the rest of the function: a non-nil error of the call is returned
at once, with the goroutines started so far; otherwise the function goes on
from the state the call left. -/
def ifErrReturn (r : Option GoError × List Goroutine)
    (rest : List Goroutine → Option GoError × List Goroutine) :
    Option GoError × List Goroutine :=
  match r with
  | (some err, gs) => (some err, gs)
  | (none, gs) => rest gs

mutual
/-- The closure `fn` of `process`. The state threaded through is the list of
goroutines started so far, in the order of their go statements; the result is
the returned error and that list. -/
def fn (ctx : Context) : Action → List Goroutine → Option GoError × List Goroutine
  | .mk name proc before next, gs =>
    ifErrReturn (fnBefore ctx before gs) fun gs1 =>
      let gs2 := gs1 ++ [⟨.mk name proc before next, ctx⟩]
      match next with
      | none => (none, gs2)
      | some n => ifErrReturn (fn ctx n gs2) fun gs3 => (none, gs3)
/-- The loop `for _, b := range before` of `fn`. -/
def fnBefore (ctx : Context) : List Action → List Goroutine → Option GoError × List Goroutine
  | [], gs => (none, gs)
  | b :: bs, gs => ifErrReturn (fn ctx b gs) fun gs1 => fnBefore ctx bs gs1
end

/-- Function `process`: `run` assigns `fn` and calls it on the root. -/
def process (ctx : Context) (a : Action) : Option GoError × List Goroutine :=
  fn ctx a []

/-! ## Tree measures, defined on the graph alone -/

mutual
/-- Number of node occurrences in the tree unfolding from a node. -/
def Action.size : Action → Nat
  | .mk _ _ before next => Action.sizeBefore before + 1 + Action.sizeNext next
/-- Node occurrences under a list of prerequisites. -/
def Action.sizeBefore : List Action → Nat
  | [] => 0
  | b :: bs => Action.size b + Action.sizeBefore bs
/-- Node occurrences under an optional successor. -/
def Action.sizeNext : Option Action → Nat
  | none => 0
  | some n => Action.size n
end

mutual
/-- The node occurrences of the tree unfolding from a node: those of its
prerequisites in list order, then the node, then those of its successor. -/
def Action.nodes : Action → List Action
  | .mk name proc before next =>
    Action.nodesBefore before ++ [.mk name proc before next] ++ Action.nodesNext next
/-- Node occurrences under a list of prerequisites, in list order. -/
def Action.nodesBefore : List Action → List Action
  | [] => []
  | b :: bs => Action.nodes b ++ Action.nodesBefore bs
/-- Node occurrences under an optional successor. -/
def Action.nodesNext : Option Action → List Action
  | none => []
  | some n => Action.nodes n
end

/-! ## The host: the walk interleaved with the goroutines it started -/

/-- State of the host program while `process` runs and afterwards. A go
statement starts its function call as an independent thread of control and
the walk does not wait for it, so a started goroutine may run at any later
step, before or after the walk has gone on or returned.
`todo` is what is left of the walk: the go statements it has still to execute
(the walk reads nothing that a goroutine writes, so this list is fixed when
the walk starts). `retval` is what `process` returns once `todo` is empty and
`returned` tells whether it has. `pending` are the goroutines started whose
`Process` call has not run, `ran` the names of the nodes whose `Process` call
has run, in that order, and `fatal` is `some e` once `log.Fatal(e)` has ended
the host. -/
structure Host where
  todo : List Goroutine
  retval : Option GoError
  returned : Bool
  pending : List Goroutine
  ran : List String
  fatal : Option GoError

/-- What the scheduler may do next: let the walk take its next step, or let
the pending goroutine at position `i` run. -/
inductive Move where
  | walk
  | sched (i : Nat)
deriving DecidableEq, Repr

/-- The host at the call of `process ctx a`. -/
def Host.init (ctx : Context) (a : Action) : Host :=
  { todo := (process ctx a).2, retval := (process ctx a).1, returned := false,
    pending := [], ran := [], fatal := none }

/-- One step of the host. The walk executes its next go statement, or returns
when none is left. A scheduled goroutine runs the body of the go statement:
it calls `f.Process(ctx)` and, when the error is not nil, `log.Fatal(err)`.
Nothing moves once `log.Fatal` has ended the host. -/
def Host.step (h : Host) : Move → Option Host
  | .walk =>
    if h.fatal.isSome || h.returned then none
    else
      match h.todo with
      | g :: rest => some { h with todo := rest, pending := h.pending ++ [g] }
      | [] => some { h with returned := true }
  | .sched i =>
    if h.fatal.isSome then none
    else
      match h.pending[i]? with
      | none => none
      | some g =>
        match g.f.Process g.ctx with
        | some err =>
          some { h with pending := h.pending.eraseIdx i, ran := h.ran ++ [g.name],
                        fatal := some err }
        | none =>
          some { h with pending := h.pending.eraseIdx i, ran := h.ran ++ [g.name] }

/-- A run of the host under a schedule; `none` when the schedule asks for a
step that is not enabled. -/
def Host.run (h : Host) : List Move → Option Host
  | [] => some h
  | m :: ms =>
    match h.step m with
    | none => none
    | some h1 => Host.run h1 ms

/-- Steps the host can still take at most: two for every go statement left
(start it, run it), one for every outstanding goroutine, one for the return of
the walk. -/
def Host.stepsLeft (h : Host) : Nat :=
  2 * h.todo.length + h.pending.length + (if h.returned then 0 else 1)

/-- What every run keeps true of a host whose walk has the go statements `L` to
execute: the walk has executed a first part of `L` and has the rest to do, the
goroutines it has started are those outstanding together with those whose
`Process` call has run, each once, every outstanding goroutine is one of `L`,
and the walk returns only when no go statement is left. -/
def Host.Inv (L : List Goroutine) (h : Host) : Prop :=
  (∃ started : List Goroutine, L = started ++ h.todo ∧
    List.Perm (started.map Goroutine.name) (h.pending.map Goroutine.name ++ h.ran)) ∧
  (∀ g ∈ h.pending, g ∈ L) ∧
  (h.returned = true → h.todo = [])

/-- What an observer sees of a host state. -/
structure View where
  returned : Bool
  retval : Option GoError
  outstanding : List String
  ran : List String
  fatal : Option GoError
deriving DecidableEq, Repr

/-- The view of a host state; `retval` is shown once `process` has returned. -/
def Host.view (h : Host) : View :=
  { returned := h.returned,
    retval := if h.returned then h.retval else none,
    outstanding := h.pending.map Goroutine.name,
    ran := h.ran,
    fatal := h.fatal }

/-- The view at the end of a run from the call `process ctx a`. -/
def observe (ctx : Context) (a : Action) (sched : List Move) : Option View :=
  (Host.run (Host.init ctx a) sched).map Host.view

/-! ## The graph built in `main` -/

/-- A context that is live. -/
def live : Context := ⟨none⟩

/-- The root `a` of `main`. -/
def mainAction : Action :=
  A "A"
    [ A "AB" [A "ABB" [] none] none,
      A "AC" [A "ACB" [] none] none ]
    (some (A "B" [A "BB" [] none] none))

/-- The graph `N` with the one prerequisite `P` and the successor `S`, all of
type `A`. -/
def chainAction : Action :=
  A "N" [A "P" [] none] (some (A "S" [] none))

/-- A single node whose `Process` returns the error `boom`. -/
def failingAction : Action :=
  .mk "A" (fun _ => some (.other "boom")) [] none

/-- The graph `P` with prerequisites `X` and `Y` and successor `S`, where
`Process` of `X` returns the error `boom` and `X` has the successor `XS`. -/
def failingPrereq : Action :=
  A "P"
    [ .mk "X" (fun _ => some (.other "boom")) [] (some (A "XS" [] none)),
      A "Y" [] none ]
    (some (A "S" [] none))

end Testq

namespace Service

/-! ## The `done` channel of `WebRTCService` -/

/-- A channel that is only ever closed: the one fact about it is whether it
has been closed. -/
structure Chan where
  closed : Bool
deriving DecidableEq, Repr

/-- What ends a goroutine abnormally. -/
inductive Panic where
  | closeOfClosedChannel
deriving DecidableEq, Repr

/-- The builtin `close`: closing a closed channel panics. -/
def Chan.close (c : Chan) : Except Panic Chan :=
  if c.closed then .error .closeOfClosedChannel else .ok { closed := true }

/-- The fields of `WebRTCService` that `Close` and the deferred function of
`processMessages` read or write. -/
structure WebRTCService where
  done : Chan
  stopped : Bool
deriving DecidableEq, Repr

/-- The service as `NewWebRTCService` makes it: `done` is a fresh open channel
and `stopped` has its zero value. -/
def NewWebRTCService : WebRTCService :=
  { done := { closed := false }, stopped := false }

/-- Method `Close`. -/
def WebRTCService.Close (s : WebRTCService) : Except Panic WebRTCService :=
  if s.stopped then .ok s
  else
    match s.done.close with
    | .error p => .error p
    | .ok d => .ok { s with done := d }

/-- The deferred function of `processMessages`, run when the message loop
exits. -/
def WebRTCService.processMessagesExit (s : WebRTCService) : Except Panic WebRTCService :=
  if s.stopped then .ok s
  else
    let s1 := { s with stopped := true }
    match s1.done.close with
    | .error p => .error p
    | .ok d => .ok { s1 with done := d }

/-- The two events that touch `done`. -/
inductive Event where
  | close
  | loopExit
deriving DecidableEq, Repr

/-- One event on the service. -/
def WebRTCService.on (s : WebRTCService) : Event → Except Panic WebRTCService
  | .close => s.Close
  | .loopExit => s.processMessagesExit

/-- A sequence of events, stopped by the first panic. -/
def WebRTCService.events (s : WebRTCService) : List Event → Except Panic WebRTCService
  | [] => .ok s
  | e :: es =>
    match s.on e with
    | .error p => .error p
    | .ok s1 => WebRTCService.events s1 es

end Service

namespace Testq

/-! ## Facts about the walk -/

mutual
/-- The walk from a node returns nil and starts, after the goroutines started
before it, one goroutine for each node occurrence under that node, in the
order of `Action.nodes`, each with the context of the call. -/
theorem fn_eq (ctx : Context) : ∀ (a : Action) (gs : List Goroutine),
    fn ctx a gs = (none, gs ++ a.nodes.map (fun f => Goroutine.mk f ctx))
  | .mk name proc before next, gs => by
    cases next with
    | none => simp [fn, fnBefore_eq ctx before gs, ifErrReturn, Action.nodes, Action.nodesNext]
    | some n =>
      simp [fn, fnBefore_eq ctx before gs, fn_eq ctx n, ifErrReturn, Action.nodes,
        Action.nodesNext]
/-- The loop over the prerequisites returns nil and starts one goroutine for
each node occurrence under them, in list order. -/
theorem fnBefore_eq (ctx : Context) : ∀ (bs : List Action) (gs : List Goroutine),
    fnBefore ctx bs gs
      = (none, gs ++ (Action.nodesBefore bs).map (fun f => Goroutine.mk f ctx))
  | [], gs => by simp [fnBefore, Action.nodesBefore]
  | b :: bs, gs => by
    simp [fnBefore, fn_eq ctx b gs, fnBefore_eq ctx bs, ifErrReturn, Action.nodesBefore]
end

mutual
/-- The list of node occurrences has as many entries as the tree has nodes. -/
theorem nodes_length : ∀ a : Action, a.nodes.length = a.size
  | .mk name proc before next => by
    simp [Action.nodes, Action.size, nodesBefore_length before, nodesNext_length next]
    omega
/-- Length of the occurrences under a list of prerequisites. -/
theorem nodesBefore_length :
    ∀ bs : List Action, (Action.nodesBefore bs).length = Action.sizeBefore bs
  | [] => by simp [Action.nodesBefore, Action.sizeBefore]
  | b :: bs => by
    simp [Action.nodesBefore, Action.sizeBefore, nodes_length b, nodesBefore_length bs]
/-- Length of the occurrences under an optional successor. -/
theorem nodesNext_length :
    ∀ n : Option Action, (Action.nodesNext n).length = Action.sizeNext n
  | none => by simp [Action.nodesNext, Action.sizeNext]
  | some n => by simp [Action.nodesNext, Action.sizeNext, nodes_length n]
end

/-- What `process` computes: nil, and one goroutine per node occurrence. -/
theorem process_eq (ctx : Context) (a : Action) :
    process ctx a = (none, a.nodes.map (fun f => Goroutine.mk f ctx)) := by
  simp [process, fn_eq]

/-- A host that lets the walk alone take `n + 1` steps, `n` being the number
of go statements left: the walk starts them all and returns, and no goroutine
has run meanwhile. -/
theorem run_walks (n : Nat) : ∀ h : Host, h.fatal = none → h.returned = false →
    h.todo.length = n →
    Host.run h (List.replicate (n + 1) Move.walk)
      = some { h with todo := [], returned := true, pending := h.pending ++ h.todo } := by
  induction n with
  | zero =>
    intro h hf hr hn
    have : h.todo = [] := List.length_eq_zero.mp hn
    simp [Host.run, Host.step, hf, hr, this]
  | succ k ih =>
    intro h hf hr hn
    match hh : h.todo with
    | [] => simp [hh] at hn
    | g :: rest =>
      have hs : h.step Move.walk
          = some { h with todo := rest, pending := h.pending ++ [g] } := by
        simp [Host.step, hf, hr, hh]
      have hk : rest.length = k := by simpa [hh] using hn
      have := ih { h with todo := rest, pending := h.pending ++ [g] } hf hr hk
      rw [List.replicate_succ, Host.run, hs]
      simp only
      rw [this]
      simp

/-- Every step of the host uses up one of the steps left. -/
theorem step_stepsLeft (h h1 : Host) (m : Move) (hs : h.step m = some h1) :
    h1.stepsLeft + 1 = h.stepsLeft := by
  cases m with
  | walk =>
    simp only [Host.step] at hs
    split at hs
    · cases hs
    · rename_i hc
      have hr : h.returned = false := by
        cases hret : h.returned
        · rfl
        · simp [hret] at hc
      match hh : h.todo with
      | [] =>
        rw [hh] at hs
        simp only [Option.some.injEq] at hs
        subst hs
        simp [Host.stepsLeft, hh, hr]
      | g :: rest =>
        rw [hh] at hs
        simp only [Option.some.injEq] at hs
        subst hs
        simp [Host.stepsLeft, hh, hr]
        omega
  | sched i =>
    simp only [Host.step] at hs
    split at hs
    · cases hs
    · match hp : h.pending[i]? with
      | none => simp [hp] at hs
      | some g =>
        have hi : i < h.pending.length := by
          rcases List.getElem?_eq_some_iff.mp hp with ⟨hlt, _⟩
          exact hlt
        have hl : (h.pending.eraseIdx i).length + 1 = h.pending.length := by
          rw [List.length_eraseIdx]
          simp [hi]
          omega
        rw [hp] at hs
        simp only at hs
        split at hs <;>
          · simp only [Option.some.injEq] at hs
            subst hs
            simp only [Host.stepsLeft]
            omega

/-- A run of the host takes as many steps as it uses up. -/
theorem run_stepsLeft : ∀ (sched : List Move) (h s : Host),
    Host.run h sched = some s → s.stepsLeft + sched.length = h.stepsLeft
  | [], h, s, hr => by
    simp only [Host.run, Option.some.injEq] at hr
    subst hr
    simp
  | m :: ms, h, s, hr => by
    simp only [Host.run] at hr
    match hs : h.step m with
    | none => simp [hs] at hr
    | some h1 =>
      rw [hs] at hr
      have h1s := step_stepsLeft h h1 m hs
      have := run_stepsLeft ms h1 s hr
      simp only [List.length_cons]
      omega

/-! ## What every run of the host keeps true -/

/-- A list is, up to order, its entry at a position followed by the list
without that position. -/
theorem perm_cons_eraseIdx {α : Type} : ∀ (l : List α) (i : Nat) (g : α),
    l[i]? = some g → List.Perm l (g :: l.eraseIdx i)
  | [], i, g, h => by simp at h
  | x :: xs, 0, g, h => by
    simp only [List.getElem?_cons_zero, Option.some.injEq] at h
    subst h
    simp
  | x :: xs, i + 1, g, h => by
    simp only [List.getElem?_cons_succ] at h
    have ih := perm_cons_eraseIdx xs i g h
    simp only [List.eraseIdx_cons_succ]
    exact (List.Perm.cons x ih).trans (List.Perm.swap g x _)

/-- What is left after erasing a position was in the list. -/
theorem mem_of_mem_eraseIdx {α : Type} : ∀ (l : List α) (i : Nat) (g : α),
    g ∈ l.eraseIdx i → g ∈ l
  | [], _, g, h => by simp at h
  | x :: xs, 0, g, h => by
    simp only [List.eraseIdx_cons_zero] at h
    exact List.mem_cons_of_mem _ h
  | x :: xs, i + 1, g, h => by
    simp only [List.eraseIdx_cons_succ, List.mem_cons] at h
    rcases h with h | h
    · exact h ▸ List.mem_cons_self _ _
    · exact List.mem_cons_of_mem _ (mem_of_mem_eraseIdx xs i g h)

/-- A step of the host keeps the invariant. -/
theorem step_inv (L : List Goroutine) (h h1 : Host) (m : Move)
    (hinv : Host.Inv L h) (hs : h.step m = some h1) : Host.Inv L h1 := by
  obtain ⟨⟨started, hL, hperm⟩, hmem, hret⟩ := hinv
  cases m with
  | walk =>
    simp only [Host.step] at hs
    split at hs
    · cases hs
    · match hh : h.todo with
      | [] =>
        rw [hh] at hs
        simp only [Option.some.injEq] at hs
        subst hs
        exact ⟨⟨started, by simpa [hh] using hL, hperm⟩, hmem, fun _ => rfl⟩
      | g :: rest =>
        rw [hh] at hs
        simp only [Option.some.injEq] at hs
        subst hs
        have hL1 : L = (started ++ [g]) ++ rest := by simp [hL, hh]
        refine ⟨⟨started ++ [g], hL1, ?_⟩, ?_, ?_⟩
        · simp only [List.map_append, List.map_cons, List.map_nil, List.append_assoc]
          have h1 : List.Perm (List.map Goroutine.name started ++ [g.name])
              ((List.map Goroutine.name h.pending ++ h.ran) ++ [g.name]) :=
            List.Perm.append_right _ hperm
          refine h1.trans ?_
          rw [List.append_assoc]
          exact List.Perm.append_left _ List.perm_append_comm
        · intro g1 hg1
          simp only [List.mem_append, List.mem_singleton] at hg1
          rcases hg1 with hg1 | hg1
          · exact hmem g1 hg1
          · subst hg1
            rw [hL1]
            simp
        · intro hr
          rename_i hc
          simp only at hr
          simp [hr] at hc
  | sched i =>
    simp only [Host.step] at hs
    split at hs
    · cases hs
    · match hp : h.pending[i]? with
      | none => simp [hp] at hs
      | some g =>
        rw [hp] at hs
        simp only at hs
        have hpg := perm_cons_eraseIdx h.pending i g hp
        have hperm1 : List.Perm (started.map Goroutine.name)
            ((h.pending.eraseIdx i).map Goroutine.name ++ (h.ran ++ [g.name])) := by
          refine hperm.trans ?_
          have h2 : List.Perm (h.pending.map Goroutine.name)
              (g.name :: (h.pending.eraseIdx i).map Goroutine.name) := by
            simpa using hpg.map Goroutine.name
          refine (List.Perm.append_right _ h2).trans ?_
          simp only [List.cons_append]
          refine List.perm_middle.symm.trans ?_
          refine List.Perm.append_left _ ?_
          exact (List.perm_append_singleton _ _).symm
        have hmem1 : ∀ g1 ∈ h.pending.eraseIdx i, g1 ∈ L := fun g1 hg1 =>
          hmem g1 (mem_of_mem_eraseIdx _ _ _ hg1)
        split at hs <;>
          · simp only [Option.some.injEq] at hs
            subst hs
            exact ⟨⟨started, hL, hperm1⟩, hmem1, hret⟩

/-- A run of the host keeps the invariant. -/
theorem run_inv (L : List Goroutine) : ∀ (sched : List Move) (h s : Host),
    Host.Inv L h → Host.run h sched = some s → Host.Inv L s
  | [], h, s, hinv, hr => by
    simp only [Host.run, Option.some.injEq] at hr
    subst hr
    exact hinv
  | m :: ms, h, s, hinv, hr => by
    simp only [Host.run] at hr
    match hs : h.step m with
    | none => simp [hs] at hr
    | some h1 =>
      rw [hs] at hr
      exact run_inv L ms h1 s (step_inv L h h1 m hinv hs) hr

/-- When no goroutine of the walk has a failing `Process`, a step of a host
that has not been ended leaves it so, and leaves the result of the walk as it
is. -/
theorem step_quiet (L : List Goroutine) (h h1 : Host) (m : Move)
    (hok : ∀ g ∈ L, g.f.Process g.ctx = none) (hmem : ∀ g ∈ h.pending, g ∈ L)
    (hf : h.fatal = none) (hs : h.step m = some h1) :
    h1.fatal = none ∧ h1.retval = h.retval := by
  cases m with
  | walk =>
    simp only [Host.step] at hs
    split at hs
    · cases hs
    · split at hs <;>
        · simp only [Option.some.injEq] at hs
          subst hs
          exact ⟨hf, rfl⟩
  | sched i =>
    simp only [Host.step] at hs
    split at hs
    · cases hs
    · match hp : h.pending[i]? with
      | none => simp [hp] at hs
      | some g =>
        rw [hp] at hs
        simp only at hs
        have hg : g ∈ h.pending := List.getElem?_mem hp
        rw [hok g (hmem g hg)] at hs
        simp only [Option.some.injEq] at hs
        subst hs
        exact ⟨hf, rfl⟩

/-- When no goroutine of the walk has a failing `Process`, no run ends the
host. -/
theorem run_quiet (L : List Goroutine) (hok : ∀ g ∈ L, g.f.Process g.ctx = none) :
    ∀ (sched : List Move) (h s : Host), Host.Inv L h → h.fatal = none →
      Host.run h sched = some s → s.fatal = none ∧ s.retval = h.retval
  | [], h, s, _, hf, hr => by
    simp only [Host.run, Option.some.injEq] at hr
    subst hr
    exact ⟨hf, rfl⟩
  | m :: ms, h, s, hinv, hf, hr => by
    simp only [Host.run] at hr
    match hs : h.step m with
    | none => simp [hs] at hr
    | some h1 =>
      rw [hs] at hr
      have h1q := step_quiet L h h1 m hok hinv.2.1 hf hs
      have h2 := run_quiet L hok ms h1 s (step_inv L h h1 m hinv hs) h1q.1 hr
      exact ⟨h2.1, h2.2.trans h1q.2⟩

/-- The invariant holds at the call of `process`. -/
theorem init_inv (ctx : Context) (a : Action) :
    Host.Inv (process ctx a).2 (Host.init ctx a) := by
  refine ⟨⟨[], by simp [Host.init], by simp [Host.init]⟩, ?_, ?_⟩
  · intro g hg
    simp [Host.init] at hg
  · intro hr
    simp [Host.init] at hr

/-- When no node of the graph fails under the context of the call, no
goroutine that `process` starts has a failing `Process`. -/
theorem process_goroutines_quiet (ctx : Context) (a : Action)
    (hok : ∀ f ∈ a.nodes, f.Process ctx = none) :
    ∀ g ∈ (process ctx a).2, g.f.Process g.ctx = none := by
  intro g hg
  rw [process_eq] at hg
  simp only [List.mem_map] at hg
  obtain ⟨f, hf, rfl⟩ := hg
  exact hok f hf

/-- The nodes of the graph of `main` are of type `A`: their `Process` returns
nil under every context. -/
theorem type_A_nodes_quiet (ctx : Context) :
    ∀ f ∈ mainAction.nodes, f.Process ctx = none := by
  simp [mainAction, A, Action.nodes, Action.nodesBefore, Action.nodesNext, Action.Process]

/-! ## The worked graph and the order of the work -/

/-- C1. On the graph of `main` the walk executes its go statements in the
order ABB, AB, ACB, AC, A, BB, B, but the work is done by the goroutines these
statements start, which nothing orders: in the run given here the walk returns
before any work has begun, and the work then runs in the order B, BB, A, AC,
ACB, AB, ABB. The documented order is therefore not the order of every run. -/
theorem main_work_order_depends_on_schedule :
    (process live mainAction).2.map Goroutine.name
        = ["ABB", "AB", "ACB", "AC", "A", "BB", "B"] ∧
    observe live mainAction
        [.walk, .walk, .walk, .walk, .walk, .walk, .walk, .walk,
         .sched 6, .sched 5, .sched 4, .sched 3, .sched 2, .sched 1, .sched 0]
      = some { returned := true, retval := none, outstanding := [],
               ran := ["B", "BB", "A", "AC", "ACB", "AB", "ABB"], fatal := none } := by
  constructor <;> decide

/-- C2. On the graph `N` with prerequisite `P` and successor `S` the walk
starts the goroutines in the order P, N, S, and there is a run in which the
work of the successor `S` runs first, then the work of `N`, and the work of
the prerequisite `P` last: the order of the work is not prerequisites, then
the node, then the successor. -/
theorem chain_work_may_run_successor_first :
    (process live chainAction).2.map Goroutine.name = ["P", "N", "S"] ∧
    observe live chainAction
        [.walk, .walk, .walk, .walk, .sched 2, .sched 1, .sched 0]
      = some { returned := true, retval := none, outstanding := [],
               ran := ["S", "N", "P"], fatal := none } := by
  constructor <;> decide

/-! ## Failures -/

/-- C3. The error of a failing `Process` is never the result of `process`:
`process` returns nil on every graph and for every context, and on the single
node whose `Process` returns `boom` there is a run in which `process` has
returned nil and the error then reaches `log.Fatal` in the goroutine. -/
theorem process_returns_nil_when_action_fails :
    (∀ (ctx : Context) (a : Action), (process ctx a).1 = none) ∧
    failingAction.Process live = some (.other "boom") ∧
    observe live failingAction [.walk, .walk, .sched 0]
      = some { returned := true, retval := none, outstanding := [],
               ran := ["A"], fatal := some (.other "boom") } := by
  refine ⟨fun ctx a => by rw [process_eq], by decide, by decide⟩

/-- C4. On the graph `P` with prerequisites `X` (failing, with successor `XS`)
and `Y` and with successor `S`, the walk starts the goroutines of all five
nodes although `X` fails, and there is a run in which the work of `XS`, `Y`,
`P` and `S`, which all follow `X` in traversal order, has run by the time the
failure of `X` ends the host. -/
theorem nodes_after_failing_node_are_processed :
    (process live failingPrereq).2.map Goroutine.name = ["X", "XS", "Y", "P", "S"] ∧
    observe live failingPrereq
        [.walk, .walk, .walk, .walk, .walk, .walk,
         .sched 1, .sched 1, .sched 1, .sched 1, .sched 0]
      = some { returned := true, retval := none, outstanding := [],
               ran := ["XS", "Y", "P", "S", "X"], fatal := some (.other "boom") } := by
  constructor <;> decide

/-- C6. On the single node whose `Process` returns `boom`, the goroutine
started by `process` reaches `log.Fatal`: in the run given here the host is
ended by it before `process` has returned, and no further step is possible. -/
theorem failing_action_ends_host :
    observe live failingAction [.walk, .sched 0]
      = some { returned := false, retval := none, outstanding := [],
               ran := ["A"], fatal := some (.other "boom") } ∧
    observe live failingAction [.walk, .sched 0, .walk] = none := by
  constructor <;> decide

/-! ## The context -/

/-- C5, counterexample. With a context that is already cancelled, and with one
past its deadline, `process` on the graph of `main` returns nil, not a context
error, and starts the `Process` call of the root and of every other node; in
the run given here, under the cancelled context, the walk returns nil and the
`Process` call of every node, the root `A` among them, has run. -/
theorem cancelled_context_is_not_reported :
    (process ⟨some .Canceled⟩ mainAction).1 = none ∧
    (process ⟨some .Canceled⟩ mainAction).2.map Goroutine.name
        = ["ABB", "AB", "ACB", "AC", "A", "BB", "B"] ∧
    (process ⟨some .DeadlineExceeded⟩ mainAction).1 = none ∧
    (process ⟨some .DeadlineExceeded⟩ mainAction).2.map Goroutine.name
        = ["ABB", "AB", "ACB", "AC", "A", "BB", "B"] ∧
    observe ⟨some .Canceled⟩ mainAction
        [.walk, .sched 0, .walk, .sched 0, .walk, .sched 0, .walk, .sched 0,
         .walk, .sched 0, .walk, .sched 0, .walk, .sched 0, .walk]
      = some { returned := true, retval := none, outstanding := [],
               ran := ["ABB", "AB", "ACB", "AC", "A", "BB", "B"], fatal := none } := by
  refine ⟨?_, ?_, ?_, ?_, ?_⟩ <;> decide

/-- C5, amended. If the context passed to `process` is already cancelled or
past its deadline, and no node's `Process` returns an error under it,
`process` goes on as with a live context: in every run the host is not ended,
every outstanding goroutine holds that same context, the walk left to itself
runs on to its return, and what it returns is nil, not a context error, the
`Process` call of the root and of every node under its prerequisites and its
successor having been started by then, once for each occurrence. -/
theorem cancelled_context_walk_goes_on (ctx : Context) (a : Action)
    (hc : ctx.err ≠ none) (hok : ∀ f ∈ a.nodes, f.Process ctx = none)
    (sched : List Move) (s : Host)
    (hrun : Host.run (Host.init ctx a) sched = some s) :
    s.fatal = none ∧
    (∀ g ∈ s.pending, g.ctx = ctx) ∧
    (s.returned = false →
      ∃ s1, Host.run s (List.replicate (s.todo.length + 1) Move.walk) = some s1 ∧
        s1.returned = true ∧ s1.retval = none) ∧
    (s.returned = true →
      s.retval = none ∧
      List.Perm (a.nodes.map Action.Name) (s.pending.map Goroutine.name ++ s.ran)) := by
  have _ := hc
  have hinv := run_inv _ sched _ s (init_inv ctx a) hrun
  have hq := run_quiet _ (process_goroutines_quiet ctx a hok) sched _ s (init_inv ctx a) rfl hrun
  have hrv : s.retval = none := by
    rw [hq.2]
    simp [Host.init, process_eq]
  refine ⟨hq.1, ?_, ?_, ?_⟩
  · intro g hg
    have hgL := hinv.2.1 g hg
    rw [process_eq] at hgL
    simp only [List.mem_map] at hgL
    obtain ⟨f, _, rfl⟩ := hgL
    rfl
  · intro hr
    exact ⟨_, run_walks s.todo.length s hq.1 hr rfl, rfl, hrv⟩
  · intro hr
    obtain ⟨⟨started, hL, hperm⟩, _, hret⟩ := hinv
    have hst : started = a.nodes.map (fun f => Goroutine.mk f ctx) := by
      rw [hret hr, List.append_nil, process_eq] at hL
      exact hL.symm
    have hnames : started.map Goroutine.name = a.nodes.map Action.Name := by
      rw [hst]
      simp [Function.comp_def, Goroutine.name]
    rw [hnames] at hperm
    exact ⟨hrv, hperm⟩

/-- C5, amended, at the graph of `main` with a cancelled context, in the run
where ABB's work runs as soon as it is started and the walk then runs to its
return. -/
theorem cancelled_context_walk_goes_on_witness :
    (Context.mk (some GoError.Canceled)).err ≠ none ∧
    (∀ f ∈ mainAction.nodes, f.Process ⟨some .Canceled⟩ = none) ∧
    ∃ s, Host.run (Host.init ⟨some .Canceled⟩ mainAction)
        [.walk, .sched 0, .walk, .walk, .walk, .walk, .walk, .walk, .walk] = some s ∧
      (s.fatal = none ∧
       (∀ g ∈ s.pending, g.ctx = ⟨some .Canceled⟩) ∧
       (s.returned = false →
         ∃ s1, Host.run s (List.replicate (s.todo.length + 1) Move.walk) = some s1 ∧
           s1.returned = true ∧ s1.retval = none) ∧
       (s.returned = true →
         s.retval = none ∧
         List.Perm (mainAction.nodes.map Action.Name)
           (s.pending.map Goroutine.name ++ s.ran))) :=
  ⟨by decide, type_A_nodes_quiet _, _, rfl,
    cancelled_context_walk_goes_on ⟨some .Canceled⟩ mainAction (by decide)
      (type_A_nodes_quiet _)
      [.walk, .sched 0, .walk, .walk, .walk, .walk, .walk, .walk, .walk] _ rfl⟩

/-! ## Joining, determinism, termination -/

/-- C7. For every graph and context there is a run in which `process` returns
while the `Process` call of every node is still outstanding and none has run:
the walk starts the goroutine of a node, goes on to its successor, and
returns, without waiting for any of them. -/
theorem process_returns_with_all_work_outstanding (ctx : Context) (a : Action) :
    observe ctx a (List.replicate (a.size + 1) Move.walk)
      = some { returned := true, retval := none,
               outstanding := a.nodes.map Action.Name, ran := [], fatal := none } := by
  have hlen : (Host.init ctx a).todo.length = a.size := by
    simp [Host.init, process_eq, nodes_length]
  have hrun := run_walks a.size (Host.init ctx a) rfl rfl hlen
  simp only [observe, hrun, Option.map_some']
  simp [Host.view, Host.init, process_eq, Function.comp_def, Goroutine.name]

/-- C8. Two runs of `process` on the graph of `main`, both complete (the walk
has returned, no work is outstanding, the host has not been ended), in which
the sequence of executed actions differs: ABB before AB in one, AB before ABB
in the other. -/
theorem main_runs_differ :
    observe live mainAction
        [.walk, .sched 0, .walk, .sched 0, .walk, .sched 0, .walk, .sched 0,
         .walk, .sched 0, .walk, .sched 0, .walk, .sched 0, .walk]
      = some { returned := true, retval := none, outstanding := [],
               ran := ["ABB", "AB", "ACB", "AC", "A", "BB", "B"], fatal := none } ∧
    observe live mainAction
        [.walk, .walk, .sched 1, .sched 0, .walk, .sched 0, .walk, .sched 0,
         .walk, .sched 0, .walk, .sched 0, .walk, .sched 0, .walk]
      = some { returned := true, retval := none, outstanding := [],
               ran := ["AB", "ABB", "ACB", "AC", "A", "BB", "B"], fatal := none } := by
  constructor <;> decide

/-- C9, counterexample. On the graph `P` of five nodes whose prerequisite `X`
fails, in the run where the work of `X` runs right after its go statement,
`log.Fatal` ends the host when one go statement out of five has been executed
and before `process` has returned, and no step is possible afterwards. -/
theorem failing_action_cuts_walk_short :
    failingPrereq.size = 5 ∧
    observe live failingPrereq [.walk, .sched 0]
      = some { returned := false, retval := none, outstanding := [],
               ran := ["X"], fatal := some (.other "boom") } ∧
    ∀ m : Move, observe live failingPrereq [.walk, .sched 0, m] = none := by
  refine ⟨by decide, by decide, ?_⟩
  intro m
  cases m <;> rfl

/-- C9, amended. On every finite tree of actions in which no node's `Process`
returns an error under the context of the call, `process` terminates: a run
has at most two steps for each node and one for the return, the host is never
ended, and as long as the walk has not returned it runs on to its return when
left to itself. When it has returned it has started the `Process` call of each
node once for each occurrence of the node in the tree unfolding from the root:
as many goroutines, outstanding or run, as the tree has nodes, and they are
the nodes of the tree. -/
theorem process_terminates_when_no_action_fails (ctx : Context) (a : Action)
    (hok : ∀ f ∈ a.nodes, f.Process ctx = none) (sched : List Move) (s : Host)
    (hrun : Host.run (Host.init ctx a) sched = some s) :
    sched.length ≤ 2 * a.size + 1 ∧
    s.fatal = none ∧
    (s.returned = false →
      ∃ s1, Host.run s (List.replicate (s.todo.length + 1) Move.walk) = some s1 ∧
        s1.returned = true) ∧
    (s.returned = true →
      s.pending.length + s.ran.length = a.size ∧
      List.Perm (a.nodes.map Action.Name) (s.pending.map Goroutine.name ++ s.ran)) := by
  have hinv := run_inv _ sched _ s (init_inv ctx a) hrun
  have hq := run_quiet _ (process_goroutines_quiet ctx a hok) sched _ s (init_inv ctx a) rfl hrun
  refine ⟨?_, hq.1, ?_, ?_⟩
  · have h := run_stepsLeft sched (Host.init ctx a) s hrun
    have h0 : (Host.init ctx a).stepsLeft = 2 * a.size + 1 := by
      simp [Host.stepsLeft, Host.init, process_eq, nodes_length]
    omega
  · intro hr
    exact ⟨_, run_walks s.todo.length s hq.1 hr rfl, rfl⟩
  · intro hr
    obtain ⟨⟨started, hL, hperm⟩, _, hret⟩ := hinv
    have hst : started = a.nodes.map (fun f => Goroutine.mk f ctx) := by
      rw [hret hr, List.append_nil, process_eq] at hL
      exact hL.symm
    have hnames : started.map Goroutine.name = a.nodes.map Action.Name := by
      rw [hst]
      simp [Function.comp_def, Goroutine.name]
    rw [hnames] at hperm
    refine ⟨?_, hperm⟩
    have hlen := hperm.length_eq
    simp only [List.length_map, List.length_append] at hlen
    rw [← hlen, nodes_length]

/-- C9, amended, at the graph of `main` with a live context, in a run of eleven
steps at the end of which the walk has returned. -/
theorem process_terminates_when_no_action_fails_witness :
    (∀ f ∈ mainAction.nodes, f.Process live = none) ∧
    ∃ s, Host.run (Host.init live mainAction)
        [.walk, .sched 0, .walk, .walk, .sched 1, .sched 0, .walk, .walk, .walk, .walk, .walk]
          = some s ∧
      (11 ≤ 2 * mainAction.size + 1 ∧
       s.fatal = none ∧
       (s.returned = false →
         ∃ s1, Host.run s (List.replicate (s.todo.length + 1) Move.walk) = some s1 ∧
           s1.returned = true) ∧
       (s.returned = true →
         s.pending.length + s.ran.length = mainAction.size ∧
         List.Perm (mainAction.nodes.map Action.Name)
           (s.pending.map Goroutine.name ++ s.ran))) :=
  ⟨type_A_nodes_quiet live, _, rfl,
    process_terminates_when_no_action_fails live mainAction (type_A_nodes_quiet live)
      [.walk, .sched 0, .walk, .walk, .sched 1, .sched 0, .walk, .walk, .walk, .walk, .walk]
      _ rfl⟩

end Testq

namespace Service

/-- Once `stopped` is set and `done` is closed, no event changes the service
or panics. -/
theorem events_after_stop : ∀ es : List Event,
    WebRTCService.events { done := { closed := true }, stopped := true } es
      = .ok { done := { closed := true }, stopped := true }
  | [] => rfl
  | e :: es => by
    cases e <;>
      simp [WebRTCService.events, WebRTCService.on, WebRTCService.Close,
        WebRTCService.processMessagesExit, events_after_stop es]

/-- C10. From the service as `NewWebRTCService` makes it, `Close` followed by
`Close`, and `Close` followed by the exit of the message loop, close the
`done` channel a second time and panic: `Close` closes the channel without
setting `stopped`, so whatever event comes after a first `Close` closes it
again. Only when the message loop exits first is the channel closed once, for
every continuation. -/
theorem done_closed_twice_after_close :
    NewWebRTCService.events [.close, .close] = .error .closeOfClosedChannel ∧
    NewWebRTCService.events [.close, .loopExit] = .error .closeOfClosedChannel ∧
    (∀ (e : Event) (es : List Event),
      NewWebRTCService.events (.close :: e :: es) = .error .closeOfClosedChannel) ∧
    (∀ es : List Event,
      NewWebRTCService.events (.loopExit :: es)
        = .ok { done := { closed := true }, stopped := true }) := by
  refine ⟨rfl, rfl, ?_, ?_⟩
  · intro e es
    cases e <;> rfl
  · intro es
    exact events_after_stop es

end Service
